import Mathlib

/-!
Verification of the Merkle-tree file-change detector
(`pkg/merkle/client.go` of Ridwan414/file-change-detector).

The Go source is shallowly embedded below:
- byte slices (`[]byte`) become `List Nat` of byte values;
- `crypto/sha256` is implemented concretely (`sha256`), since the builder
  hard-codes it (`hashData`, `hashFile`);
- Go maps (`map[string][]byte`) become association lists with Go's
  assignment semantics (`insertHash`: overwrite in place, append if new);
- fallible functions return `Except String`;
- directory traversal, CSV framing, glob and the system clock are external
  collaborators: functions receive the traversal result / CSV rows / glob
  result / current time as explicit arguments.
-/

/-! ### SHA-256 (crypto/sha256), on byte lists, all words reduced mod 2^32 -/

def w32 : Nat := 4294967296

/-- 32-bit rotate right. -/
def rotr (n x : Nat) : Nat := ((x >>> n) ||| (x <<< (32 - n))) % w32

def smallSigma0 (x : Nat) : Nat := (rotr 7 x) ^^^ (rotr 18 x) ^^^ (x >>> 3)

def smallSigma1 (x : Nat) : Nat := (rotr 17 x) ^^^ (rotr 19 x) ^^^ (x >>> 10)

def bigSigma0 (x : Nat) : Nat := (rotr 2 x) ^^^ (rotr 13 x) ^^^ (rotr 22 x)

def bigSigma1 (x : Nat) : Nat := (rotr 6 x) ^^^ (rotr 11 x) ^^^ (rotr 25 x)

/-- The eight initial hash words of SHA-256. -/
def sha256Init : List Nat :=
  [1779033703, 3144134277, 1013904242, 2773480762,
   1359893119, 2600822924, 528734635, 1541459225]

/-- The 64 round constants of SHA-256. -/
def sha256K : List Nat :=
  [1116352408, 1899447441, 3049323471, 3921009573, 961987163,
   1508970993, 2453635748, 2870763221, 3624381080, 310598401,
   607225278, 1426881987, 1925078388, 2162078206, 2614888103,
   3248222580, 3835390401, 4022224774, 264347078, 604807628,
   770255983, 1249150122, 1555081692, 1996064986, 2554220882,
   2821834349, 2952996808, 3210313671, 3336571891, 3584528711,
   113926993, 338241895, 666307205, 773529912, 1294757372,
   1396182291, 1695183700, 1986661051, 2177026350, 2456956037,
   2730485921, 2820302411, 3259730800, 3345764771, 3516065817,
   3600352804, 4094571909, 275423344, 430227734, 506948616,
   659060556, 883997877, 958139571, 1322822218, 1537002063,
   1747873779, 1955562222, 2024104815, 2227730452, 2361852424,
   2428436474, 2756734187, 3204031479, 3329325298]

/-- Big-endian 4-byte groups to 32-bit words. -/
def bytesToWords : List Nat → List Nat
  | b0 :: b1 :: b2 :: b3 :: rest =>
      (((b0 * 256 + b1) * 256 + b2) * 256 + b3) :: bytesToWords rest
  | _ => []

/-- One extension step of the message schedule; the schedule is kept
reversed (most recent word first). -/
def scheduleStep (wrev : List Nat) : List Nat :=
  ((smallSigma1 (wrev.getD 1 0) + wrev.getD 6 0 +
    smallSigma0 (wrev.getD 14 0) + wrev.getD 15 0) % w32) :: wrev

/-- Extend the 16 block words to the 64 schedule words. -/
def buildSchedule (w16 : List Nat) : List Nat :=
  (Nat.repeat scheduleStep 48 w16.reverse).reverse

/-- One compression round on the running state `[a,b,c,d,e,f,g,h]`. -/
def sha256Round (st : List Nat) (k w : Nat) : List Nat :=
  match st with
  | [a, b, c, d, e, f, g, h] =>
      let ch := (e &&& f) ^^^ ((e ^^^ 4294967295) &&& g)
      let maj := (a &&& b) ^^^ (a &&& c) ^^^ (b &&& c)
      let t1 := (h + bigSigma1 e + ch + k + w) % w32
      let t2 := (bigSigma0 a + maj) % w32
      [(t1 + t2) % w32, a, b, c, (d + t1) % w32, e, f, g]
  | other => other

/-- Compress one 64-byte block into the running state. -/
def compressBlock (st : List Nat) (blockBytes : List Nat) : List Nat :=
  let w := buildSchedule (bytesToWords blockBytes)
  let final := (List.zip sha256K w).foldl (fun s p => sha256Round s p.1 p.2) st
  List.zipWith (fun x y => (x + y) % w32) st final

/-- SHA-256 padding: append 0x80, zero bytes, and the 64-bit big-endian
bit length, so the total length is a multiple of 64. -/
def sha256Pad (msg : List Nat) : List Nat :=
  let padLen := (64 - ((msg.length + 9) % 64)) % 64
  let bitLen := msg.length * 8
  msg ++ [0x80] ++ List.replicate padLen 0 ++
    [bitLen / 2^56 % 256, bitLen / 2^48 % 256, bitLen / 2^40 % 256,
     bitLen / 2^32 % 256, bitLen / 2^24 % 256, bitLen / 2^16 % 256,
     bitLen / 2^8 % 256, bitLen % 256]

/-- Process the padded bytes 64 at a time.  The first argument is fuel;
any fuel at least the number of blocks gives the true result, and the
callers pass the padded length, which is 64 times the block count. -/
def sha256BlocksAux : Nat → List Nat → List Nat → List Nat
  | 0, st, _ => st
  | fuel + 1, st, bytes =>
      match bytes with
      | [] => st
      | _ :: _ => sha256BlocksAux fuel (compressBlock st (bytes.take 64)) (bytes.drop 64)

/-- A 32-bit word as four big-endian bytes. -/
def wordBytes (x : Nat) : List Nat :=
  [x / 2^24 % 256, x / 2^16 % 256, x / 2^8 % 256, x % 256]

/-- SHA-256 of a byte sequence, as 32 bytes. -/
def sha256 (msg : List Nat) : List Nat :=
  let padded := sha256Pad msg
  ((sha256BlocksAux padded.length sha256Init padded).map wordBytes).flatten

/-! ### Data model (client.go) -/

/-- `ChangeType` of client.go. -/
inductive ChangeType where
  | modified
  | added
  | deleted
deriving DecidableEq, Repr

/-- `FileChange` of client.go; the `OldHash`/`NewHash` byte slices are
`nil` (`none`) when the record does not carry that digest. -/
structure FileChange where
  fileName : String
  changeType : ChangeType
  oldHash : Option (List Nat) := none
  newHash : Option (List Nat) := none
deriving DecidableEq, Repr

/-- `MerkleNode` of client.go.  The Go struct has nullable child pointers
and an `IsLeaf` flag; the two construction sites build exactly the two
shapes below (leaf: `IsLeaf` true, both children nil; internal: `IsLeaf`
false, both children non-nil), so the embedding is the tagged sum of
those shapes.  A nil `*MerkleNode` is `Option MerkleNode` at use sites. -/
inductive MerkleNode where
  | leaf (hash : List Nat) (fileName : String)
  | node (hash : List Nat) (left : MerkleNode) (right : MerkleNode)
deriving DecidableEq, Repr

/-- The `Hash` field. -/
def MerkleNode.hash : MerkleNode → List Nat
  | .leaf h _ => h
  | .node h _ _ => h

/-- The `FileName` field; internal nodes keep Go's zero value `""`. -/
def MerkleNode.fileName : MerkleNode → String
  | .leaf _ f => f
  | .node _ _ _ => ""

/-- `MerkleTree` of client.go: a (possibly nil) root pointer. -/
structure MerkleTree where
  root : Option MerkleNode
deriving DecidableEq, Repr

/-- Timestamps: Go `time.Time` as (whole seconds, nanoseconds); the zero
`time.Time` is `(0, 0)`. -/
abbrev Timestamp := Nat × Nat

/-- `TreeState` of client.go.  `RootHash` is a nullable byte slice;
`FileHashes` is a Go map, embedded as an association list written in Go
map-assignment order. -/
structure TreeState where
  timestamp : Timestamp
  rootHash : Option (List Nat)
  fileHashes : List (String × List Nat)
deriving DecidableEq, Repr

/-- `ChangeReport` of client.go. -/
structure ChangeReport where
  oldTimestamp : Timestamp
  newTimestamp : Timestamp
  oldRootHash : Option (List Nat)
  newRootHash : Option (List Nat)
  changes : List FileChange
deriving DecidableEq, Repr

/-- `Except` equality is decidable componentwise (used to evaluate the
embedded fallible functions at concrete inputs). -/
instance {e a : Type} [DecidableEq e] [DecidableEq a] : DecidableEq (Except e a) := fun x y =>
  match x, y with
  | .ok u, .ok v =>
      if h : u = v then .isTrue (by rw [h]) else .isFalse (fun hc => h (Except.ok.inj hc))
  | .error u, .error v =>
      if h : u = v then .isTrue (by rw [h]) else .isFalse (fun hc => h (Except.error.inj hc))
  | .ok _, .error _ => .isFalse (fun hc => Except.noConfusion hc)
  | .error _, .ok _ => .isFalse (fun hc => Except.noConfusion hc)

/-! ### Go map operations on the association-list embedding -/

/-- Go map assignment `m[k] = v`: overwrite in place, append if absent. -/
def insertHash (m : List (String × List Nat)) (k : String) (v : List Nat) :
    List (String × List Nat) :=
  match m with
  | [] => [(k, v)]
  | (k', v') :: rest => if k' = k then (k, v) :: rest else (k', v') :: insertHash rest k v

/-- Go map lookup `m[k]`; `none` is the missing-key case. -/
def lookupHash (m : List (String × List Nat)) (k : String) : Option (List Nat) :=
  match m with
  | [] => none
  | (k', v) :: rest => if k' = k then some v else lookupHash rest k

/-! ### Hashing and tree construction (client.go helpers) -/

/-- `hashData` of client.go: SHA-256 of the bytes. -/
def hashData (data : List Nat) : List Nat := sha256 data

/-- `hashFile` of client.go digests the file's content stream with
SHA-256; here the content bytes are the argument. -/
def hashFile (content : List Nat) : List Nat := sha256 content

/-- `equalHashes` of client.go: length check, then byte-wise comparison. -/
def equalHashes (h1 h2 : List Nat) : Bool :=
  if h1.length ≠ h2.length then false
  else (List.zip h1 h2).all fun p => p.1 = p.2

/-- One pass of the level-reduction loop in `buildMerkleTree`: pair
adjacent nodes `(0,1),(2,3),…`; an unpaired final node is paired with
itself.  Parents carry Go's zero values `IsLeaf=false`, `FileName=""`. -/
def combineLevel : List MerkleNode → List MerkleNode
  | [] => []
  | [x] => [.node (hashData (x.hash ++ x.hash)) x x]
  | x :: y :: rest => .node (hashData (x.hash ++ y.hash)) x y :: combineLevel rest

/-- `buildMerkleTree` of client.go, with explicit fuel for the
level-recursion.  Each recursive call strictly shrinks the list, so any
fuel at least the list length gives the Go function's value
(`buildMerkleTreeAux_fuel` below); the zero-fuel arm is unreachable for
the fuel the wrapper passes. -/
def buildMerkleTreeAux : Nat → List MerkleNode → Option MerkleNode
  | _, [] => none
  | _, [x] => some x
  | 0, _ :: _ :: _ => none
  | fuel + 1, x :: y :: rest => buildMerkleTreeAux fuel (combineLevel (x :: y :: rest))

/-- `buildMerkleTree` of client.go: reduce level by level until one node
remains; `none` is Go's nil result for an empty input. -/
def buildMerkleTree (nodes : List MerkleNode) : Option MerkleNode :=
  buildMerkleTreeAux nodes.length nodes

/-- Go's `<` on strings: lexicographic byte-wise comparison, embedded
structurally over the character sequence (UTF-8 byte order and code-point
order agree, so the two comparisons sort identically). -/
def charListLt : List Char → List Char → Bool
  | _, [] => false
  | [], _ :: _ => true
  | a :: as, b :: bs =>
      if a.toNat < b.toNat then true
      else if b.toNat < a.toNat then false
      else charListLt as bs

/-- Go string comparison `a < b`. -/
def stringLt (a b : String) : Bool := charListLt a.data b.data

/-- Insertion step of the sort: place `x` before the first strictly
larger file name. -/
def insertNode (x : MerkleNode) : List MerkleNode → List MerkleNode
  | [] => [x]
  | y :: ys => if stringLt x.fileName y.fileName then x :: y :: ys else y :: insertNode x ys

/-- The `sort.Slice(leafNodes, …FileName < …FileName)` call of
`createMerkleTreeFromFolder`: some sort of the nodes by file name
(insertion sort here; `sort.Slice` fixes no algorithm). -/
def sortNodes : List MerkleNode → List MerkleNode
  | [] => []
  | x :: xs => insertNode x (sortNodes xs)

/-- `createMerkleTreeFromFolder` of client.go.  The `filepath.Walk`
traversal is an external collaborator; its result — the relative path and
content bytes of every regular file, in enumeration order — is the
argument.  Leaves are hashed in walk order, the empty walk is an error,
the leaves are sorted by file name, and the tree is built. -/
def createMerkleTreeFromFolder (files : List (String × List Nat)) :
    Except String MerkleTree :=
  let leafNodes := files.map fun f => MerkleNode.leaf (hashFile f.2) f.1
  if leafNodes.isEmpty then .error "no files found in folder"
  else .ok ⟨buildMerkleTree (sortNodes leafNodes)⟩

/-- `GetTree` of client.go. -/
def GetTree (files : List (String × List Nat)) : Except String MerkleTree :=
  createMerkleTreeFromFolder files

/-- `collectFileHashes` of client.go, inserting every leaf's
`(FileName, Hash)` into the map, left subtree first.  The Go function's
nil-argument arm can only be reached with a nil root, which
`CreateSnapshot` dereferences first; the non-nil cases are embedded. -/
def collectFileHashes (node : MerkleNode) (fileHashes : List (String × List Nat)) :
    List (String × List Nat) :=
  match node with
  | .leaf h f => insertHash fileHashes f h
  | .node _ l r => collectFileHashes r (collectFileHashes l fileHashes)

/-- `CreateSnapshot` of client.go; `now` is the external `time.Now()`.
`tree.Root.Hash` dereferences the root, so a nil root (never produced by
a successful `GetTree`) is modelled as a distinguished error. -/
def CreateSnapshot (now : Timestamp) (files : List (String × List Nat)) :
    Except String TreeState :=
  match GetTree files with
  | .error e => .error e
  | .ok tree =>
      match tree.root with
      | none => .error "nil root dereference"
      | some r =>
          .ok { timestamp := now
                rootHash := some r.hash
                fileHashes := collectFileHashes r [] }

/-! ### Differ (CompareSnapshots) -/

/-- `CompareSnapshots` of client.go: three passes (modified over the new
map, added over the new map, deleted over the old map), appended in that
order.  Go map iteration order is unspecified; the embedding iterates the
association lists in order. -/
def CompareSnapshots (oldState newState : TreeState) : ChangeReport :=
  { oldTimestamp := oldState.timestamp
    newTimestamp := newState.timestamp
    oldRootHash := oldState.rootHash
    newRootHash := newState.rootHash
    changes :=
      (newState.fileHashes.filterMap fun p =>
        match lookupHash oldState.fileHashes p.1 with
        | some oldHash =>
            if equalHashes oldHash p.2 then none
            else some { fileName := p.1, changeType := .modified,
                        oldHash := some oldHash, newHash := some p.2 }
        | none => none) ++
      (newState.fileHashes.filterMap fun p =>
        match lookupHash oldState.fileHashes p.1 with
        | some _ => none
        | none => some { fileName := p.1, changeType := .added, newHash := some p.2 }) ++
      (oldState.fileHashes.filterMap fun p =>
        match lookupHash newState.fileHashes p.1 with
        | some _ => none
        | none => some { fileName := p.1, changeType := .deleted, oldHash := some p.2 }) }

/-! ### Persistence (SaveSnapshot / LoadSnapshot / FindLatestSnapshot)

The CSV file is embedded at the record level: a `List (List String)` of
rows, the first row the header.  `encoding/csv` framing, `os` file I/O
and `filepath.Glob` are external collaborators. -/

/-- Hex digit for a value below 16 (lowercase, as `encoding/hex`). -/
def hexDigit (n : Nat) : Char :=
  if n < 10 then Char.ofNat (48 + n) else Char.ofNat (87 + n)

/-- `hex.EncodeToString`: two lowercase digits per byte. -/
def hexEncode (bs : List Nat) : String :=
  ⟨bs.foldr (fun b acc => hexDigit (b / 16) :: hexDigit (b % 16) :: acc) []⟩

/-- Value of one hex digit (`0-9a-fA-F`), as `encoding/hex` accepts. -/
def hexVal (c : Char) : Option Nat :=
  if '0' ≤ c ∧ c ≤ '9' then some (c.toNat - 48)
  else if 'a' ≤ c ∧ c ≤ 'f' then some (c.toNat - 87)
  else if 'A' ≤ c ∧ c ≤ 'F' then some (c.toNat - 55)
  else none

/-- `hex.DecodeString` on the character list: the decoded bytes plus an
ok flag; on an invalid pair or an odd trailing digit the bytes decoded so
far are returned with `false`, as the Go function returns the decoded
prefix together with its error. -/
def hexDecodeChars : List Char → List Nat × Bool
  | [] => ([], true)
  | [_] => ([], false)
  | c1 :: c2 :: rest =>
      match hexVal c1, hexVal c2 with
      | some h, some l =>
          let r := hexDecodeChars rest
          ((16 * h + l) :: r.1, r.2)
      | _, _ => ([], false)

/-- `hex.DecodeString`. -/
def hexDecode (s : String) : List Nat × Bool := hexDecodeChars s.data

/-- Decimal digit characters of `n`, least significant first, with fuel
(any fuel at least `n` is enough). -/
def natDigitsAux : Nat → Nat → List Char
  | 0, _ => []
  | fuel + 1, n =>
      if n = 0 then [] else Char.ofNat (48 + n % 10) :: natDigitsAux fuel (n / 10)

/-- Decimal rendering of a natural number. -/
def formatNat (n : Nat) : String :=
  if n = 0 then "0" else ⟨(natDigitsAux n n).reverse⟩

/-- Parse a non-empty all-digit string as a natural number. -/
def parseDecimal (s : String) : Option Nat :=
  if s.data ≠ [] ∧ s.data.all (fun c => '0' ≤ c ∧ c ≤ '9')
  then some (s.data.foldl (fun acc c => 10 * acc + (c.toNat - 48)) 0)
  else none

/-- Modelled from the spec: the Go `time` package's RFC 3339 rendering
(`time.Time.Format(time.RFC3339)`) is external standard-library code, not
in this repository; the spec requires only "a standard round-trippable
text format" whose precision is whole seconds.  It is modelled as an
injective decimal rendering of the whole-second part (sub-second
precision is dropped, as RFC 3339 without fractional seconds drops it). -/
def formatRFC3339 (t : Timestamp) : String := formatNat t.1

/-- Modelled from the spec: `time.Parse(time.RFC3339, s)`, the inverse of
`formatRFC3339`; on a malformed string Go returns the zero `time.Time`
together with an error, and `LoadSnapshot` discards the error, so the
model returns the zero timestamp on parse failure. -/
def parseRFC3339 (s : String) : Timestamp :=
  match parseDecimal s with
  | some n => (n, 0)
  | none => (0, 0)

/-- The header row `SaveSnapshot` writes and `LoadSnapshot` expects. -/
def csvHeader : List String := ["timestamp", "root_hash", "file_path", "file_hash"]

/-- `SaveSnapshot` of client.go, at the CSV record level: the header row,
then one row per map entry with the snapshot's timestamp and root hash
repeated on every row.  (`nil` `RootHash` hex-encodes to `""`.) -/
def SaveSnapshot (state : TreeState) : List (List String) :=
  csvHeader ::
    state.fileHashes.map fun p =>
      [formatRFC3339 state.timestamp,
       hexEncode (state.rootHash.getD []),
       p.1,
       hexEncode p.2]

/-- The data-row loop of `LoadSnapshot`: parse the timestamp while it is
still zero and the root hash while it is still nil — both with their Go
errors discarded — and assign the `row[0]`..`row[3]` fields into the
state, ignoring any further fields.  A row whose field count differs
from the header's (`csv.Reader`'s `FieldsPerRecord`, fixed by the first
record) is `ErrFieldCount`, returned as an error; a row that passes the
count check but has fewer than four fields (possible only after a
sub-four-column header, which the header check below never accepts)
would make Go's `row[i]` indexing panic, embedded as the distinguished
panic error. -/
def loadRows (fieldsPerRecord : Nat) :
    List (List String) → TreeState → Except String TreeState
  | [], state => .ok state
  | row :: rest, state =>
      if row.length = fieldsPerRecord then
        match row with
        | c0 :: c1 :: c2 :: c3 :: _ =>
            let s1 := if state.timestamp = (0, 0)
                      then { state with timestamp := parseRFC3339 c0 } else state
            let s2 := if s1.rootHash = none
                      then { s1 with rootHash := some (hexDecode c1).1 } else s1
            loadRows fieldsPerRecord rest
              { s2 with fileHashes := insertHash s2.fileHashes c2 (hexDecode c3).1 }
        | _ => .error "panic: index out of range"
      else .error "wrong number of fields"

/-- The header-validation loop of `LoadSnapshot`
(`for i, h := range expectedHeader { if header[i] != h … }`): only the
first four header fields are inspected, in order.  A mismatching
inspected field returns the `invalid CSV header` error; a header shorter
than the expected fields it has matched so far makes Go's `header[i]`
indexing panic (index out of range), embedded as the distinguished panic
error; fields beyond the fourth are never looked at.  The first argument
is the remaining expected fields, the second the remaining header
fields. -/
def checkHeaderAux : List String → List String → Except String Unit
  | [], _ => .ok ()
  | _ :: _, [] => .error "panic: index out of range"
  | e :: es, h :: hs =>
      if h = e then checkHeaderAux es hs else .error "invalid CSV header"

/-- Validate a header row against `csvHeader`, as the Go loop does. -/
def checkHeader (header : List String) : Except String Unit :=
  checkHeaderAux csvHeader header

/-- `LoadSnapshot` of client.go at the CSV record level.  An empty file
is the reader's immediate `io.EOF`, returned as an error; the header is
validated on its first four fields only (`checkHeader`), and the header
row also fixes `csv.Reader`'s `FieldsPerRecord` to its own field count
for the data rows. -/
def LoadSnapshot (rows : List (List String)) : Except String TreeState :=
  match rows with
  | [] => .error "EOF"
  | header :: dataRows =>
      match checkHeader header with
      | .error e => .error e
      | .ok _ =>
          loadRows header.length dataRows
            { timestamp := (0, 0), rootHash := none, fileHashes := [] }

/-- Insertion sort step on strings. -/
def insertString (x : String) : List String → List String
  | [] => [x]
  | y :: ys => if stringLt x y then x :: y :: ys else y :: insertString x ys

/-- `sort.Strings` (some sort in increasing order). -/
def sortStrings : List String → List String
  | [] => []
  | x :: xs => insertString x (sortStrings xs)

/-- `FindLatestSnapshot` of client.go.  `filepath.Glob` is external; its
result — the matching stored-snapshot file names — is the `files`
argument.  No match is the distinguished no-prior-state error; otherwise
the names are sorted and the last (most recent) is returned. -/
def FindLatestSnapshot (folderName : String) (files : List String) :
    Except String String :=
  if files.isEmpty then
    .error ("no previous state found for folder: " ++ folderName)
  else
    match (sortStrings files).getLast? with
    | some f => .ok f
    | none => .error "unreachable: sorting a non-empty list is non-empty"

/-! ### Lemmas: the string comparison and the sort -/

theorem charListLt_irrefl : ∀ l : List Char, charListLt l l = false
  | [] => rfl
  | a :: as => by simp [charListLt, charListLt_irrefl as]

theorem charListLt_asymm :
    ∀ {l1 l2 : List Char}, charListLt l1 l2 = true → charListLt l2 l1 = false := by
  intro l1
  induction l1 with
  | nil =>
      intro l2 h
      cases l2 with
      | nil => exact absurd h (by simp [charListLt])
      | cons b bs => rfl
  | cons a as ih =>
      intro l2 h
      cases l2 with
      | nil => exact absurd h (by simp [charListLt])
      | cons b bs =>
          simp only [charListLt] at h ⊢
          by_cases h1 : a.toNat < b.toNat
          · simp [h1, show ¬ b.toNat < a.toNat by omega]
          · by_cases h2 : b.toNat < a.toNat
            · rw [if_neg h1, if_pos h2] at h
              exact absurd h (by simp)
            · have h3 : charListLt bs as = false :=
                ih (by rwa [if_neg h1, if_neg h2] at h)
              simp [h1, h2, h3]

theorem charListLt_eq_of_not :
    ∀ {l1 l2 : List Char}, charListLt l1 l2 = false → charListLt l2 l1 = false →
      l1 = l2 := by
  intro l1
  induction l1 with
  | nil =>
      intro l2 h1 h2
      cases l2 with
      | nil => rfl
      | cons b bs => exact absurd h1 (by simp [charListLt])
  | cons a as ih =>
      intro l2 h1 h2
      cases l2 with
      | nil => exact absurd h2 (by simp [charListLt])
      | cons b bs =>
          simp only [charListLt] at h1 h2
          by_cases hab : a.toNat < b.toNat
          · rw [if_pos hab] at h1
            exact absurd h1 (by simp)
          · by_cases hba : b.toNat < a.toNat
            · rw [if_neg hab, if_pos hba] at h2
              exact absurd h2 (by simp)
            · rw [if_neg hab, if_neg hba] at h1
              rw [if_neg hba, if_neg hab] at h2
              have hc : a.toNat = b.toNat := by omega
              rw [Char.ext (UInt32.ext hc), ih h1 h2]

theorem charListLt_trans :
    ∀ {l1 l2 l3 : List Char}, charListLt l1 l2 = true → charListLt l2 l3 = true →
      charListLt l1 l3 = true := by
  intro l1
  induction l1 with
  | nil =>
      intro l2 l3 h1 h2
      cases l2 with
      | nil => exact absurd h1 (by simp [charListLt])
      | cons b bs =>
          cases l3 with
          | nil => exact absurd h2 (by simp [charListLt])
          | cons c cs => rfl
  | cons a as ih =>
      intro l2 l3 h1 h2
      cases l2 with
      | nil => exact absurd h1 (by simp [charListLt])
      | cons b bs =>
          cases l3 with
          | nil => exact absurd h2 (by simp [charListLt])
          | cons c cs =>
              simp only [charListLt] at h1 h2 ⊢
              by_cases hab : a.toNat < b.toNat
              · by_cases hbc : b.toNat < c.toNat
                · simp [show a.toNat < c.toNat by omega]
                · by_cases hcb : c.toNat < b.toNat
                  · rw [if_neg hbc, if_pos hcb] at h2
                    exact absurd h2 (by simp)
                  · simp [show a.toNat < c.toNat by omega]
              · by_cases hba : b.toNat < a.toNat
                · rw [if_neg hab, if_pos hba] at h1
                  exact absurd h1 (by simp)
                · rw [if_neg hab, if_neg hba] at h1
                  by_cases hbc : b.toNat < c.toNat
                  · simp [show a.toNat < c.toNat by omega]
                  · by_cases hcb : c.toNat < b.toNat
                    · rw [if_neg hbc, if_pos hcb] at h2
                      exact absurd h2 (by simp)
                    · rw [if_neg hbc, if_neg hcb] at h2
                      simp [show ¬ a.toNat < c.toNat by omega,
                        show ¬ c.toNat < a.toNat by omega, ih h1 h2]

theorem stringLt_asymm {a b : String} (h : stringLt a b = true) :
    stringLt b a = false :=
  charListLt_asymm h

theorem stringLt_eq_of_not {a b : String} (h1 : stringLt a b = false)
    (h2 : stringLt b a = false) : a = b :=
  String.ext (charListLt_eq_of_not h1 h2)

theorem stringLt_trans {a b c : String} (h1 : stringLt a b = true)
    (h2 : stringLt b c = true) : stringLt a c = true :=
  charListLt_trans h1 h2

theorem insertNode_perm (x : MerkleNode) (l : List MerkleNode) :
    (insertNode x l).Perm (x :: l) := by
  induction l with
  | nil => rfl
  | cons y ys ih =>
      cases hc : stringLt x.fileName y.fileName with
      | true => simp [insertNode, hc]
      | false =>
          have he : insertNode x (y :: ys) = y :: insertNode x ys := by
            simp [insertNode, hc]
          rw [he]
          exact (ih.cons y).trans (List.Perm.swap x y ys)

theorem sortNodes_perm (l : List MerkleNode) : (sortNodes l).Perm l := by
  induction l with
  | nil => rfl
  | cons x xs ih => exact (insertNode_perm x (sortNodes xs)).trans (ih.cons x)

theorem insertNode_mem {z : MerkleNode} (x : MerkleNode) (l : List MerkleNode) :
    z ∈ insertNode x l ↔ z = x ∨ z ∈ l := by
  rw [(insertNode_perm x l).mem_iff]
  simp

theorem insertNode_pairwise (x : MerkleNode) {l : List MerkleNode}
    (h : l.Pairwise fun a b => stringLt b.fileName a.fileName = false) :
    (insertNode x l).Pairwise fun a b => stringLt b.fileName a.fileName = false := by
  induction l with
  | nil => simp [insertNode]
  | cons y ys ih =>
      rcases List.pairwise_cons.mp h with ⟨hy, hys⟩
      cases hc : stringLt x.fileName y.fileName with
      | true =>
          have he : insertNode x (y :: ys) = x :: y :: ys := by
            simp [insertNode, hc]
          rw [he]
          refine List.pairwise_cons.mpr ⟨?_, h⟩
          intro z hz
          rcases List.mem_cons.mp hz with rfl | hz
          · exact stringLt_asymm hc
          · cases hzx : stringLt z.fileName x.fileName with
            | false => rfl
            | true => exact absurd (stringLt_trans hzx hc) (by simp [hy z hz])
      | false =>
          have he : insertNode x (y :: ys) = y :: insertNode x ys := by
            simp [insertNode, hc]
          rw [he]
          refine List.pairwise_cons.mpr ⟨?_, ih hys⟩
          intro z hz
          rcases (insertNode_mem x ys).mp hz with rfl | hz
          · exact hc
          · exact hy z hz

theorem sortNodes_pairwise (l : List MerkleNode) :
    (sortNodes l).Pairwise fun a b => stringLt b.fileName a.fileName = false := by
  induction l with
  | nil => simp [sortNodes]
  | cons x xs ih => exact insertNode_pairwise x ih

/-- Two permutations of the same list that are both strictly sorted on
file names are equal. -/
theorem eq_of_perm_of_pairwise_lt :
    ∀ {l1 l2 : List MerkleNode}, l1.Perm l2 →
      (l1.Pairwise fun a b => stringLt a.fileName b.fileName = true) →
      (l2.Pairwise fun a b => stringLt a.fileName b.fileName = true) → l1 = l2 := by
  intro l1
  induction l1 with
  | nil =>
      intro l2 hp _ _
      exact (hp.symm.eq_nil).symm
  | cons a t ih =>
      intro l2 hp h1 h2
      cases l2 with
      | nil => exact absurd hp.eq_nil (List.cons_ne_nil a t)
      | cons b u =>
          have hab : a = b := by
            have hain : a ∈ b :: u := hp.mem_iff.mp (List.mem_cons_self a t)
            have hbin : b ∈ a :: t := hp.symm.mem_iff.mp (List.mem_cons_self b u)
            rcases List.mem_cons.mp hain with h | h
            · exact h
            · rcases List.mem_cons.mp hbin with h' | h'
              · exact h'.symm
              · exact absurd ((List.pairwise_cons.mp h2).1 a h)
                  (by simp [stringLt_asymm ((List.pairwise_cons.mp h1).1 b h')])
          subst hab
          rw [ih hp.cons_inv (List.pairwise_cons.mp h1).2 (List.pairwise_cons.mp h2).2]

theorem pairwise_lt_of_pairwise_le_nodup {l : List MerkleNode}
    (hnd : (l.map MerkleNode.fileName).Nodup)
    (hle : l.Pairwise fun a b => stringLt b.fileName a.fileName = false) :
    l.Pairwise fun a b => stringLt a.fileName b.fileName = true := by
  have hne : l.Pairwise fun a b => a.fileName ≠ b.fileName := List.pairwise_map.mp hnd
  refine (hle.and hne).imp ?_
  intro a b h
  cases hab : stringLt a.fileName b.fileName with
  | true => rfl
  | false => exact absurd (stringLt_eq_of_not hab h.1) h.2

/-- The load-bearing determinism fact: on node lists with no duplicate
file names, any sort by file name has a unique result, so permuting the
input does not change the sorted list. -/
theorem sortNodes_eq_of_perm {l1 l2 : List MerkleNode} (h : l1.Perm l2)
    (hnd : (l1.map MerkleNode.fileName).Nodup) : sortNodes l1 = sortNodes l2 := by
  have hnd1 : ((sortNodes l1).map MerkleNode.fileName).Nodup :=
    (((sortNodes_perm l1).map MerkleNode.fileName).nodup_iff).mpr hnd
  have hnd2 : ((sortNodes l2).map MerkleNode.fileName).Nodup :=
    (((sortNodes_perm l2).map MerkleNode.fileName).nodup_iff).mpr
      ((h.map MerkleNode.fileName).nodup_iff.mp hnd)
  exact eq_of_perm_of_pairwise_lt
    ((sortNodes_perm l1).trans (h.trans (sortNodes_perm l2).symm))
    (pairwise_lt_of_pairwise_le_nodup hnd1 (sortNodes_pairwise l1))
    (pairwise_lt_of_pairwise_le_nodup hnd2 (sortNodes_pairwise l2))

theorem leafNodes_fileName_map (files : List (String × List Nat)) :
    ((files.map fun f => MerkleNode.leaf (hashFile f.2) f.1).map MerkleNode.fileName) =
      files.map Prod.fst := by
  simp [List.map_map, Function.comp, MerkleNode.fileName]

/-- C1: For every non-empty leaf-entry list with distinct paths and every
permutation of it, sorting by path and reducing pairwise yields the same
tree and the same root digest; likewise `createMerkleTreeFromFolder` on
permuted traversal results returns identical values. -/
theorem merkle_root_permutation_invariant :
    (∀ e1 e2 : List (String × List Nat), e1 ≠ [] → e1.Perm e2 → (e1.map Prod.fst).Nodup →
      buildMerkleTree (sortNodes (e1.map fun e => MerkleNode.leaf e.2 e.1)) =
        buildMerkleTree (sortNodes (e2.map fun e => MerkleNode.leaf e.2 e.1)) ∧
      (buildMerkleTree (sortNodes (e1.map fun e => MerkleNode.leaf e.2 e.1))).map
          MerkleNode.hash =
        (buildMerkleTree (sortNodes (e2.map fun e => MerkleNode.leaf e.2 e.1))).map
          MerkleNode.hash) ∧
    (∀ f1 f2 : List (String × List Nat), f1 ≠ [] → f1.Perm f2 → (f1.map Prod.fst).Nodup →
      createMerkleTreeFromFolder f1 = createMerkleTreeFromFolder f2) := by
  have key : ∀ (g : String × List Nat → MerkleNode)
      (hg : ∀ e, (g e).fileName = e.1)
      (e1 e2 : List (String × List Nat)), e1.Perm e2 → (e1.map Prod.fst).Nodup →
      sortNodes (e1.map g) = sortNodes (e2.map g) := by
    intro g hg e1 e2 hp hnd
    refine sortNodes_eq_of_perm (hp.map g) ?_
    have : (e1.map g).map MerkleNode.fileName = e1.map Prod.fst := by
      simp [List.map_map, Function.comp, hg]
    rw [this]
    exact hnd
  constructor
  · intro e1 e2 _ hp hnd
    have hs := key (fun e => MerkleNode.leaf e.2 e.1) (fun _ => rfl) e1 e2 hp hnd
    rw [hs]
    exact ⟨rfl, rfl⟩
  · intro f1 f2 hne hp hnd
    have hs := key (fun f => MerkleNode.leaf (hashFile f.2) f.1) (fun _ => rfl) f1 f2 hp hnd
    have hne2 : f2 ≠ [] := by
      intro h
      subst h
      exact hne hp.eq_nil
    simp only [createMerkleTreeFromFolder, List.isEmpty_iff, List.map_eq_nil_iff, hne, hne2,
      ite_false, hs]

/-- Witness for C1 at a concrete permuted pair of entry lists. -/
theorem merkle_root_permutation_invariant_witness :
    createMerkleTreeFromFolder [("b.txt", [1]), ("a.txt", [2])] =
      createMerkleTreeFromFolder [("a.txt", [2]), ("b.txt", [1])] :=
  merkle_root_permutation_invariant.2 _ _ (by decide) (by decide) (by decide)

/-! ### Lemmas: the Go map embedding -/

theorem lookupHash_insertHash (m : List (String × List Nat)) (k : String) (v : List Nat)
    (p : String) :
    lookupHash (insertHash m k v) p = if k = p then some v else lookupHash m p := by
  induction m with
  | nil => by_cases h : k = p <;> simp [insertHash, lookupHash, h]
  | cons x rest ih =>
      obtain ⟨k', v'⟩ := x
      by_cases h1 : k' = k
      · subst h1
        by_cases h2 : k' = p <;> simp [insertHash, lookupHash, h2]
      · by_cases h2 : k' = p
        · subst h2
          have : ¬ k = k' := fun h => h1 h.symm
          simp [insertHash, lookupHash, h1, this]
        · simp [insertHash, lookupHash, h1, h2, ih]

theorem mem_keys_insertHash (m : List (String × List Nat)) (k : String) (v : List Nat)
    (p : String) :
    p ∈ (insertHash m k v).map Prod.fst ↔ p = k ∨ p ∈ m.map Prod.fst := by
  induction m with
  | nil => simp [insertHash]
  | cons x rest ih =>
      obtain ⟨k', v'⟩ := x
      by_cases h1 : k' = k
      · subst h1
        simp [insertHash]
      · simp [insertHash, h1, ih]
        tauto

theorem nodup_keys_insertHash {m : List (String × List Nat)} (k : String) (v : List Nat)
    (h : (m.map Prod.fst).Nodup) : ((insertHash m k v).map Prod.fst).Nodup := by
  induction m with
  | nil => simp [insertHash]
  | cons x rest ih =>
      obtain ⟨k', v'⟩ := x
      simp only [List.map_cons, List.nodup_cons] at h
      by_cases h1 : k' = k
      · subst h1
        simpa [insertHash] using h
      · have hsh : insertHash ((k', v') :: rest) k v = (k', v') :: insertHash rest k v := by
          simp [insertHash, h1]
        rw [hsh]
        simp only [List.map_cons, List.nodup_cons]
        refine ⟨?_, ih h.2⟩
        intro hmem
        rcases (mem_keys_insertHash rest k v k').mp hmem with h2 | h2
        · exact h1 h2
        · exact h.1 h2

theorem lookupHash_eq_some_mem {m : List (String × List Nat)} {p : String} {v : List Nat}
    (h : lookupHash m p = some v) : (p, v) ∈ m := by
  induction m with
  | nil => simp [lookupHash] at h
  | cons x rest ih =>
      obtain ⟨k', v'⟩ := x
      by_cases h1 : k' = p
      · subst h1
        simp [lookupHash] at h
        simp [h]
      · simp only [lookupHash, h1, ite_false] at h
        exact List.mem_cons_of_mem _ (ih h)

theorem lookupHash_eq_none_iff {m : List (String × List Nat)} {p : String} :
    lookupHash m p = none ↔ p ∉ m.map Prod.fst := by
  induction m with
  | nil => simp [lookupHash]
  | cons x rest ih =>
      obtain ⟨k', v'⟩ := x
      by_cases h1 : k' = p
      · subst h1
        simp [lookupHash]
      · simp only [lookupHash, h1, ite_false, List.map_cons, List.mem_cons]
        rw [ih]
        constructor
        · intro h
          push_neg
          exact ⟨fun he => h1 he.symm, h⟩
        · intro h
          push_neg at h
          exact h.2

theorem lookupHash_isSome_of_mem {m : List (String × List Nat)} {p : String} {v : List Nat}
    (h : (p, v) ∈ m) : ∃ w, lookupHash m p = some w := by
  induction m with
  | nil => simp at h
  | cons x rest ih =>
      obtain ⟨k', v'⟩ := x
      by_cases h1 : k' = p
      · subst h1
        exact ⟨v', by simp [lookupHash]⟩
      · rcases List.mem_cons.mp h with h2 | h2
        · exact absurd (congrArg Prod.fst h2).symm h1
        · simpa [lookupHash, h1] using ih h2

theorem lookupHash_of_mem_nodup {m : List (String × List Nat)} {p : String} {v : List Nat}
    (hnd : (m.map Prod.fst).Nodup) (h : (p, v) ∈ m) : lookupHash m p = some v := by
  induction m with
  | nil => simp at h
  | cons x rest ih =>
      obtain ⟨k', v'⟩ := x
      simp only [List.map_cons, List.nodup_cons] at hnd
      rcases List.mem_cons.mp h with h2 | h2
      · injection h2 with hk hv
        subst hk
        subst hv
        simp [lookupHash]
      · have h1 : k' ≠ p := by
          intro hk
          subst hk
          exact hnd.1 (List.mem_map.mpr ⟨(k', v), h2, rfl⟩)
        simp [lookupHash, h1, ih hnd.2 h2]

theorem mem_value_unique {m : List (String × List Nat)} {p : String} {a b : List Nat}
    (hnd : (m.map Prod.fst).Nodup) (h1 : (p, a) ∈ m) (h2 : (p, b) ∈ m) : a = b := by
  have ha := lookupHash_of_mem_nodup hnd h1
  have hb := lookupHash_of_mem_nodup hnd h2
  rw [ha] at hb
  exact Option.some_injective _ hb

/-- The element function of the modified pass of `CompareSnapshots`. -/
def modifiedPass (oldH : List (String × List Nat)) (p : String × List Nat) :
    Option FileChange :=
  match lookupHash oldH p.1 with
  | some oldHash =>
      if equalHashes oldHash p.2 then none
      else some { fileName := p.1, changeType := .modified,
                  oldHash := some oldHash, newHash := some p.2 }
  | none => none

/-- The element function of the added pass of `CompareSnapshots`. -/
def addedPass (oldH : List (String × List Nat)) (p : String × List Nat) :
    Option FileChange :=
  match lookupHash oldH p.1 with
  | some _ => none
  | none => some { fileName := p.1, changeType := .added, newHash := some p.2 }

/-- The element function of the deleted pass of `CompareSnapshots`. -/
def deletedPass (newH : List (String × List Nat)) (p : String × List Nat) :
    Option FileChange :=
  match lookupHash newH p.1 with
  | some _ => none
  | none => some { fileName := p.1, changeType := .deleted, oldHash := some p.2 }

theorem compareSnapshots_changes_eq (o n : TreeState) :
    (CompareSnapshots o n).changes =
      n.fileHashes.filterMap (modifiedPass o.fileHashes) ++
      n.fileHashes.filterMap (addedPass o.fileHashes) ++
      o.fileHashes.filterMap (deletedPass n.fileHashes) := rfl

theorem equalHashes_iff : ∀ a b : List Nat, equalHashes a b = true ↔ a = b := by
  intro a
  induction a with
  | nil =>
      intro b
      cases b <;> simp [equalHashes]
  | cons x a' ih =>
      intro b
      cases b with
      | nil => simp [equalHashes]
      | cons y b' =>
          by_cases hl : a'.length = b'.length
          · have hrec := ih b'
            simp only [equalHashes, hl, ne_eq, not_true_eq_false, ite_false,
              if_neg, List.length_cons] at hrec ⊢
            simp [hl, List.zip_cons_cons] at hrec ⊢
            tauto
          · have : ¬ (x :: a') = (y :: b') := by
              intro h
              exact hl (by simpa using congrArg List.length h)
            simp only [equalHashes, List.length_cons, this, iff_false]
            intro hfalse
            simp [show a'.length + 1 ≠ b'.length + 1 by omega] at hfalse


theorem modifiedPass_name {oldH : List (String × List Nat)} {q : String × List Nat}
    {c : FileChange} (h : modifiedPass oldH q = some c) : c.fileName = q.1 := by
  unfold modifiedPass at h
  split at h
  · split at h
    · exact absurd h (by simp)
    · injection h with h
      subst h
      rfl
  · exact absurd h (by simp)

theorem addedPass_name {oldH : List (String × List Nat)} {q : String × List Nat}
    {c : FileChange} (h : addedPass oldH q = some c) : c.fileName = q.1 := by
  unfold addedPass at h
  split at h
  · exact absurd h (by simp)
  · injection h with h
    subst h
    rfl

theorem deletedPass_name {newH : List (String × List Nat)} {q : String × List Nat}
    {c : FileChange} (h : deletedPass newH q = some c) : c.fileName = q.1 := by
  unfold deletedPass at h
  split at h
  · exact absurd h (by simp)
  · injection h with h
    subst h
    rfl

theorem modifiedPass_some_lookup {oldH : List (String × List Nat)} {q : String × List Nat}
    {c : FileChange} (h : modifiedPass oldH q = some c) :
    ∃ w, lookupHash oldH q.1 = some w := by
  unfold modifiedPass at h
  split at h
  · exact ⟨_, by assumption⟩
  · exact absurd h (by simp)

theorem addedPass_some_lookup {oldH : List (String × List Nat)} {q : String × List Nat}
    {c : FileChange} (h : addedPass oldH q = some c) : lookupHash oldH q.1 = none := by
  unfold addedPass at h
  split at h
  · exact absurd h (by simp)
  · assumption

theorem deletedPass_some_lookup {newH : List (String × List Nat)} {q : String × List Nat}
    {c : FileChange} (h : deletedPass newH q = some c) : lookupHash newH q.1 = none := by
  unfold deletedPass at h
  split at h
  · exact absurd h (by simp)
  · assumption

/-- If a path is absent from the iterated map, a name-preserving pass
contributes no record for it. -/
theorem filterMap_filter_name_of_not_mem {m : List (String × List Nat)}
    {f : String × List Nat → Option FileChange}
    (hf : ∀ q c, f q = some c → c.fileName = q.1) {p : String}
    (hp : p ∉ m.map Prod.fst) :
    (m.filterMap f).filter (fun c => c.fileName == p) = [] := by
  induction m with
  | nil => rfl
  | cons q rest ih =>
      simp only [List.map_cons, List.mem_cons] at hp
      push_neg at hp
      rw [List.filterMap_cons]
      cases hq : f q with
      | none => exact ih hp.2
      | some c =>
          rw [List.filter_cons]
          have hname : (c.fileName == p) = false := by
            rw [hf q c hq, beq_eq_false_iff_ne]
            exact fun h => hp.1 h.symm
          simp [hname, ih hp.2]

/-- On a duplicate-free map, a name-preserving pass contributes for path
`p` exactly what its element function yields at `p`'s binding. -/
theorem filterMap_filter_name {m : List (String × List Nat)}
    {f : String × List Nat → Option FileChange}
    (hf : ∀ q c, f q = some c → c.fileName = q.1)
    (hnd : (m.map Prod.fst).Nodup) {p : String} {v : List Nat}
    (hl : lookupHash m p = some v) :
    (m.filterMap f).filter (fun c => c.fileName == p) = (f (p, v)).toList := by
  induction m with
  | nil => simp [lookupHash] at hl
  | cons q rest ih =>
      obtain ⟨k, w⟩ := q
      simp only [List.map_cons, List.nodup_cons] at hnd
      rw [List.filterMap_cons]
      by_cases hk : k = p
      · subst hk
        simp only [lookupHash, if_pos rfl] at hl
        have hwv : w = v := Option.some_injective _ hl
        subst hwv
        have hrest : (rest.filterMap f).filter (fun c => c.fileName == k) = [] :=
          filterMap_filter_name_of_not_mem hf hnd.1
        cases hq : f (k, w) with
        | none => simpa using hrest
        | some c =>
            rw [List.filter_cons]
            have hname : (c.fileName == k) = true := by
              rw [hf _ _ hq]
              exact beq_self_eq_true k
            simp [hname, hrest]
      · simp only [lookupHash, hk, ite_false] at hl
        cases hq : f (k, w) with
        | none => exact ih hnd.2 hl
        | some c =>
            rw [List.filter_cons]
            have hname : (c.fileName == p) = false := by
              rw [hf _ _ hq, beq_eq_false_iff_ne]
              exact hk
            simp only [hname, Bool.false_eq_true, ite_false]
            exact ih hnd.2 hl

/-- The record names a name-preserving pass emits are a sublist of the
iterated map's keys. -/
theorem filterMap_names_sublist {m : List (String × List Nat)}
    {f : String × List Nat → Option FileChange}
    (hf : ∀ q c, f q = some c → c.fileName = q.1) :
    ((m.filterMap f).map (fun c => c.fileName)).Sublist (m.map Prod.fst) := by
  induction m with
  | nil => simp
  | cons q rest ih =>
      rw [List.filterMap_cons]
      cases hq : f q with
      | none =>
          simp only [List.map_cons]
          exact ih.cons _
      | some c =>
          simp only [List.map_cons]
          rw [hf _ _ hq]
          exact ih.cons₂ _

/-- C2: `CompareSnapshots` emits, for each path, exactly one Modified
record (with both digests) when the path is in both maps with unequal
digests, exactly one Added record (new digest only) when only in the new
map, exactly one Deleted record (old digest only) when only in the old
map, no record when in both maps with equal digests, and consequently
each path occurs in at most one record of the report.  (Map keys are
duplicate-free, as Go map keys are.) -/
theorem compareSnapshots_classification (oldS newS : TreeState)
    (hndOld : (oldS.fileHashes.map Prod.fst).Nodup)
    (hndNew : (newS.fileHashes.map Prod.fst).Nodup) :
    (∀ p ov nv, lookupHash oldS.fileHashes p = some ov →
        lookupHash newS.fileHashes p = some nv → ov ≠ nv →
        ((CompareSnapshots oldS newS).changes.filter fun c => c.fileName == p) =
          [{ fileName := p, changeType := .modified,
             oldHash := some ov, newHash := some nv }]) ∧
    (∀ p nv, lookupHash oldS.fileHashes p = none →
        lookupHash newS.fileHashes p = some nv →
        ((CompareSnapshots oldS newS).changes.filter fun c => c.fileName == p) =
          [{ fileName := p, changeType := .added,
             oldHash := none, newHash := some nv }]) ∧
    (∀ p ov, lookupHash oldS.fileHashes p = some ov →
        lookupHash newS.fileHashes p = none →
        ((CompareSnapshots oldS newS).changes.filter fun c => c.fileName == p) =
          [{ fileName := p, changeType := .deleted,
             oldHash := some ov, newHash := none }]) ∧
    (∀ p v, lookupHash oldS.fileHashes p = some v →
        lookupHash newS.fileHashes p = some v →
        ((CompareSnapshots oldS newS).changes.filter fun c => c.fileName == p) = []) ∧
    ((CompareSnapshots oldS newS).changes.map fun c => c.fileName).Nodup := by
  refine ⟨?_, ?_, ?_, ?_, ?_⟩
  · intro p ov nv hlo hln hne
    have heq : equalHashes ov nv = false := by
      rcases Bool.eq_false_or_eq_true (equalHashes ov nv) with h | h
      · exact absurd ((equalHashes_iff ov nv).mp h) hne
      · exact h
    rw [compareSnapshots_changes_eq, List.filter_append, List.filter_append,
        filterMap_filter_name (fun _ _ => modifiedPass_name) hndNew hln,
        filterMap_filter_name (fun _ _ => addedPass_name) hndNew hln,
        filterMap_filter_name (fun _ _ => deletedPass_name) hndOld hlo]
    simp [modifiedPass, addedPass, deletedPass, hlo, hln, heq]
  · intro p nv hlo hln
    rw [compareSnapshots_changes_eq, List.filter_append, List.filter_append,
        filterMap_filter_name (fun _ _ => modifiedPass_name) hndNew hln,
        filterMap_filter_name (fun _ _ => addedPass_name) hndNew hln,
        filterMap_filter_name_of_not_mem (fun _ _ => deletedPass_name)
          (lookupHash_eq_none_iff.mp hlo)]
    simp [modifiedPass, addedPass, hlo]
  · intro p ov hlo hln
    rw [compareSnapshots_changes_eq, List.filter_append, List.filter_append,
        filterMap_filter_name_of_not_mem (fun _ _ => modifiedPass_name)
          (lookupHash_eq_none_iff.mp hln),
        filterMap_filter_name_of_not_mem (fun _ _ => addedPass_name)
          (lookupHash_eq_none_iff.mp hln),
        filterMap_filter_name (fun _ _ => deletedPass_name) hndOld hlo]
    simp [deletedPass, hln]
  · intro p v hlo hln
    have heq : equalHashes v v = true := (equalHashes_iff v v).mpr rfl
    rw [compareSnapshots_changes_eq, List.filter_append, List.filter_append,
        filterMap_filter_name (fun _ _ => modifiedPass_name) hndNew hln,
        filterMap_filter_name (fun _ _ => addedPass_name) hndNew hln,
        filterMap_filter_name (fun _ _ => deletedPass_name) hndOld hlo]
    simp [modifiedPass, addedPass, deletedPass, hlo, hln, heq]
  · rw [compareSnapshots_changes_eq]
    simp only [List.map_append]
    have hA : ((newS.fileHashes.filterMap (modifiedPass oldS.fileHashes)).map
        (fun c => c.fileName)).Nodup :=
      (filterMap_names_sublist (fun _ _ => modifiedPass_name)).nodup hndNew
    have hB : ((newS.fileHashes.filterMap (addedPass oldS.fileHashes)).map
        (fun c => c.fileName)).Nodup :=
      (filterMap_names_sublist (fun _ _ => addedPass_name)).nodup hndNew
    have hC : ((oldS.fileHashes.filterMap (deletedPass newS.fileHashes)).map
        (fun c => c.fileName)).Nodup :=
      (filterMap_names_sublist (fun _ _ => deletedPass_name)).nodup hndOld
    have hAmem : ∀ x, x ∈ (newS.fileHashes.filterMap (modifiedPass oldS.fileHashes)).map
        (fun c => c.fileName) →
        (∃ w, lookupHash oldS.fileHashes x = some w) ∧
          x ∈ newS.fileHashes.map Prod.fst := by
      intro x hx
      rcases List.mem_map.mp hx with ⟨c, hc, rfl⟩
      rcases List.mem_filterMap.mp hc with ⟨q, hq, hfq⟩
      rw [modifiedPass_name hfq]
      exact ⟨modifiedPass_some_lookup hfq, List.mem_map.mpr ⟨q, hq, rfl⟩⟩
    have hBmem : ∀ x, x ∈ (newS.fileHashes.filterMap (addedPass oldS.fileHashes)).map
        (fun c => c.fileName) →
        lookupHash oldS.fileHashes x = none ∧ x ∈ newS.fileHashes.map Prod.fst := by
      intro x hx
      rcases List.mem_map.mp hx with ⟨c, hc, rfl⟩
      rcases List.mem_filterMap.mp hc with ⟨q, hq, hfq⟩
      rw [addedPass_name hfq]
      exact ⟨addedPass_some_lookup hfq, List.mem_map.mpr ⟨q, hq, rfl⟩⟩
    have hCmem : ∀ x, x ∈ (oldS.fileHashes.filterMap (deletedPass newS.fileHashes)).map
        (fun c => c.fileName) → lookupHash newS.fileHashes x = none := by
      intro x hx
      rcases List.mem_map.mp hx with ⟨c, hc, rfl⟩
      rcases List.mem_filterMap.mp hc with ⟨q, hq, hfq⟩
      rw [deletedPass_name hfq]
      exact deletedPass_some_lookup hfq
    have dAB : ((newS.fileHashes.filterMap (modifiedPass oldS.fileHashes)).map
        (fun c => c.fileName)).Disjoint
          ((newS.fileHashes.filterMap (addedPass oldS.fileHashes)).map
            (fun c => c.fileName)) := by
      intro x hxA hxB
      rcases (hAmem x hxA).1 with ⟨w, hw⟩
      rw [(hBmem x hxB).1] at hw
      exact Option.noConfusion hw
    have dABC : (((newS.fileHashes.filterMap (modifiedPass oldS.fileHashes)).map
        (fun c => c.fileName)) ++
          ((newS.fileHashes.filterMap (addedPass oldS.fileHashes)).map
            (fun c => c.fileName))).Disjoint
          ((oldS.fileHashes.filterMap (deletedPass newS.fileHashes)).map
            (fun c => c.fileName)) := by
      intro x hxAB hxC
      have hxNew : x ∈ newS.fileHashes.map Prod.fst := by
        rcases List.mem_append.mp hxAB with h | h
        · exact (hAmem x h).2
        · exact (hBmem x h).2
      exact (lookupHash_eq_none_iff.mp (hCmem x hxC)) hxNew
    rw [List.nodup_append, List.nodup_append]
    exact ⟨⟨hA, hB, dAB⟩, hC, dABC⟩

/-- Witness for C2 at concrete snapshots: path `a.txt` is modified. -/
theorem compareSnapshots_classification_witness :
    ((CompareSnapshots
        { timestamp := (0, 0), rootHash := none,
          fileHashes := [("a.txt", [1]), ("b.txt", [2])] }
        { timestamp := (0, 0), rootHash := none,
          fileHashes := [("a.txt", [9]), ("c.txt", [3])] }).changes.filter
      fun c => c.fileName == "a.txt") =
      [{ fileName := "a.txt", changeType := .modified,
         oldHash := some [1], newHash := some [9] }] :=
  (compareSnapshots_classification _ _ (by decide) (by decide)).1
    "a.txt" [1] [9] (by decide) (by decide) (by decide)

/-! ### Lemmas: tree construction -/

theorem combineLevel_length : ∀ l : List MerkleNode, (combineLevel l).length = (l.length + 1) / 2
  | [] => by simp [combineLevel]
  | [_] => by simp [combineLevel]
  | _ :: _ :: rest => by
      simp [combineLevel, combineLevel_length rest]
      omega

theorem buildMerkleTreeAux_some :
    ∀ (fuel : Nat) (l : List MerkleNode), l.length ≤ fuel → l ≠ [] →
      ∃ t, buildMerkleTreeAux fuel l = some t := by
  intro fuel
  induction fuel with
  | zero =>
      intro l hl hne
      cases l with
      | nil => exact absurd rfl hne
      | cons a as => simp at hl
  | succ f ih =>
      intro l hl hne
      cases l with
      | nil => exact absurd rfl hne
      | cons x xs =>
          cases xs with
          | nil => exact ⟨x, rfl⟩
          | cons y rest =>
              have hlen : (combineLevel (x :: y :: rest)).length ≤ f := by
                rw [combineLevel_length]
                simp only [List.length_cons] at hl ⊢
                omega
              have hcne : combineLevel (x :: y :: rest) ≠ [] := by
                intro h
                have := combineLevel_length (x :: y :: rest)
                rw [h] at this
                simp only [List.length_nil, List.length_cons] at this
                omega
              obtain ⟨t, ht⟩ := ih _ hlen hcne
              exact ⟨t, by simpa [buildMerkleTreeAux] using ht⟩

theorem buildMerkleTree_some {l : List MerkleNode} (hne : l ≠ []) :
    ∃ t, buildMerkleTree l = some t :=
  buildMerkleTreeAux_some l.length l le_rfl hne

/-- The full-binary-tree hash invariant: every internal node's digest is
`hashData` of its two children's digests concatenated left-then-right. -/
def hashConsistentB : MerkleNode → Bool
  | .leaf _ _ => true
  | .node h l r =>
      (h == hashData (l.hash ++ r.hash)) && hashConsistentB l && hashConsistentB r

theorem hashConsistentB_combineLevel :
    ∀ l : List MerkleNode, (∀ n ∈ l, hashConsistentB n = true) →
      ∀ n ∈ combineLevel l, hashConsistentB n = true
  | [], _ => by simp [combineLevel]
  | [x], h => by
      intro n hn
      simp only [combineLevel, List.mem_singleton] at hn
      subst hn
      simp [hashConsistentB, h x (by simp)]
  | x :: y :: rest, h => by
      intro n hn
      simp only [combineLevel, List.mem_cons] at hn
      rcases hn with rfl | hn
      · simp [hashConsistentB, h x (by simp), h y (by simp)]
      · exact hashConsistentB_combineLevel rest
          (fun m hm => h m (by simp [hm])) n hn

theorem buildMerkleTreeAux_consistent :
    ∀ (fuel : Nat) (l : List MerkleNode), (∀ n ∈ l, hashConsistentB n = true) →
      ∀ t, buildMerkleTreeAux fuel l = some t → hashConsistentB t = true := by
  intro fuel
  induction fuel with
  | zero =>
      intro l h t ht
      cases l with
      | nil => simp [buildMerkleTreeAux] at ht
      | cons x xs =>
          cases xs with
          | nil =>
              simp only [buildMerkleTreeAux, Option.some.injEq] at ht
              subst ht
              exact h x (by simp)
          | cons y rest => simp [buildMerkleTreeAux] at ht
  | succ f ih =>
      intro l h t ht
      cases l with
      | nil => simp [buildMerkleTreeAux] at ht
      | cons x xs =>
          cases xs with
          | nil =>
              simp only [buildMerkleTreeAux, Option.some.injEq] at ht
              subst ht
              exact h x (by simp)
          | cons y rest =>
              simp only [buildMerkleTreeAux] at ht
              exact ih _ (hashConsistentB_combineLevel _ h) t ht

/-- The `(FileName, Hash)` pairs at the leaves of a node, left to right. -/
def leafEntries : MerkleNode → List (String × List Nat)
  | .leaf h f => [(f, h)]
  | .node _ l r => leafEntries l ++ leafEntries r

/-- The leaf entries of a whole level. -/
def levelEntries (l : List MerkleNode) : List (String × List Nat) :=
  (l.map leafEntries).flatten

theorem mem_levelEntries_combineLevel :
    ∀ (l : List MerkleNode) (a : String × List Nat),
      a ∈ levelEntries (combineLevel l) ↔ a ∈ levelEntries l
  | [], a => by simp [combineLevel, levelEntries]
  | [x], a => by
      simp [combineLevel, levelEntries, leafEntries]
  | x :: y :: rest, a => by
      have ih := mem_levelEntries_combineLevel rest a
      simp only [levelEntries] at ih ⊢
      simp only [combineLevel, List.map_cons, List.flatten_cons, List.mem_append,
        leafEntries] at ih ⊢
      tauto

theorem mem_leafEntries_buildAux :
    ∀ (fuel : Nat) (l : List MerkleNode) (t : MerkleNode),
      buildMerkleTreeAux fuel l = some t →
      ∀ a, a ∈ leafEntries t ↔ a ∈ levelEntries l := by
  intro fuel
  induction fuel with
  | zero =>
      intro l t ht a
      cases l with
      | nil => simp [buildMerkleTreeAux] at ht
      | cons x xs =>
          cases xs with
          | nil =>
              simp only [buildMerkleTreeAux, Option.some.injEq] at ht
              subst ht
              simp [levelEntries]
          | cons y rest => simp [buildMerkleTreeAux] at ht
  | succ f ih =>
      intro l t ht a
      cases l with
      | nil => simp [buildMerkleTreeAux] at ht
      | cons x xs =>
          cases xs with
          | nil =>
              simp only [buildMerkleTreeAux, Option.some.injEq] at ht
              subst ht
              simp [levelEntries]
          | cons y rest =>
              simp only [buildMerkleTreeAux] at ht
              exact (ih _ t ht a).trans (mem_levelEntries_combineLevel _ a)

/-- Folding Go map assignment over an entry list. -/
def insertAllHashes (m : List (String × List Nat)) (l : List (String × List Nat)) :
    List (String × List Nat) :=
  l.foldl (fun acc p => insertHash acc p.1 p.2) m

theorem collectFileHashes_eq :
    ∀ (t : MerkleNode) (m : List (String × List Nat)),
      collectFileHashes t m = insertAllHashes m (leafEntries t)
  | .leaf h f, m => by simp [collectFileHashes, leafEntries, insertAllHashes]
  | .node h l r, m => by
      simp [collectFileHashes, leafEntries, insertAllHashes, List.foldl_append,
        collectFileHashes_eq l, collectFileHashes_eq r]

theorem mem_keys_insertAllHashes :
    ∀ (l : List (String × List Nat)) (m : List (String × List Nat)) (p : String),
      p ∈ (insertAllHashes m l).map Prod.fst ↔
        p ∈ m.map Prod.fst ∨ p ∈ l.map Prod.fst := by
  intro l
  induction l with
  | nil => simp [insertAllHashes]
  | cons q rest ih =>
      intro m p
      rw [show insertAllHashes m (q :: rest) = insertAllHashes (insertHash m q.1 q.2) rest
        from rfl]
      rw [ih]
      rw [mem_keys_insertHash]
      simp only [List.map_cons, List.mem_cons]
      tauto

theorem nodup_keys_insertAllHashes :
    ∀ (l : List (String × List Nat)) (m : List (String × List Nat)),
      (m.map Prod.fst).Nodup → ((insertAllHashes m l).map Prod.fst).Nodup := by
  intro l
  induction l with
  | nil => exact fun m h => h
  | cons q rest ih =>
      intro m h
      exact ih (insertHash m q.1 q.2) (nodup_keys_insertHash q.1 q.2 h)

theorem lookupHash_insertAllHashes :
    ∀ (l : List (String × List Nat)) (m : List (String × List Nat)),
      (∀ a ∈ l, ∀ b ∈ l, a.1 = b.1 → a.2 = b.2) →
      ∀ (p : String) (d : List Nat),
        lookupHash (insertAllHashes m l) p = some d ↔
          ((p, d) ∈ l ∨ (p ∉ l.map Prod.fst ∧ lookupHash m p = some d)) := by
  intro l
  induction l with
  | nil => simp [insertAllHashes]
  | cons q rest ih =>
      obtain ⟨k, v⟩ := q
      intro m huniq p d
      rw [show insertAllHashes m ((k, v) :: rest) = insertAllHashes (insertHash m k v) rest
        from rfl]
      rw [ih (insertHash m k v)
        (fun a ha b hb hab => huniq a (List.mem_cons_of_mem _ ha) b (List.mem_cons_of_mem _ hb) hab)]
      rw [lookupHash_insertHash]
      by_cases hk : k = p
      · subst hk
        simp only [if_pos rfl, List.map_cons, List.mem_cons]
        constructor
        · rintro (h | ⟨hnk, hl⟩)
          · exact Or.inl (Or.inr h)
          · have hd : v = d := Option.some_injective _ hl
            subst hd
            exact Or.inl (Or.inl rfl)
        · rintro (h | ⟨hnk, _⟩)
          · rcases h with heq | h
            · have hd : d = v := congrArg Prod.snd heq
              subst hd
              by_cases hmem : k ∈ rest.map Prod.fst
              · rcases List.mem_map.mp hmem with ⟨q, hq, hq1⟩
                have hqv : q.2 = d :=
                  huniq q (List.mem_cons_of_mem _ hq) (k, d) (List.mem_cons_self _ _)
                    (by rw [hq1])
                have hqe : q = (k, d) := Prod.ext hq1 hqv
                exact Or.inl (hqe ▸ hq)
              · exact Or.inr ⟨hmem, rfl⟩
            · exact Or.inl h
          · exact absurd (Or.inl trivial) hnk
      · simp only [if_neg hk, List.map_cons, List.mem_cons]
        constructor
        · rintro (h | ⟨hnk, hl⟩)
          · exact Or.inl (Or.inr h)
          · exact Or.inr ⟨fun hc => (by
              rcases hc with hc | hc
              · exact hk hc.symm
              · exact hnk hc), hl⟩
        · rintro (h | ⟨hnk, hl⟩)
          · rcases h with heq | h
            · exact absurd (congrArg Prod.fst heq).symm hk
            · exact Or.inl h
          · exact Or.inr ⟨fun hc => hnk (Or.inr hc), hl⟩

/-- C3: every tree the builder constructs from a non-empty leaf list
satisfies the full-binary invariant — each internal node has exactly two
children (the `MerkleNode.node` constructor) and its digest is SHA-256 of
the left child's digest concatenated with the right child's digest — and
on a three-leaf level the unpaired third node is paired with itself, so
its parent's digest is `hashData (n3.hash ++ n3.hash)`. -/
theorem built_tree_hash_consistent :
    (∀ (files : List (String × List Nat)) (t : MerkleTree), files ≠ [] →
        createMerkleTreeFromFolder files = .ok t → ∀ r, t.root = some r →
        hashConsistentB r = true) ∧
    (∀ n1 n2 n3 : MerkleNode,
        buildMerkleTree [n1, n2, n3] =
          some (.node
            (hashData (hashData (n1.hash ++ n2.hash) ++ hashData (n3.hash ++ n3.hash)))
            (.node (hashData (n1.hash ++ n2.hash)) n1 n2)
            (.node (hashData (n3.hash ++ n3.hash)) n3 n3))) := by
  constructor
  · intro files t hne hok r hr
    simp only [createMerkleTreeFromFolder, List.isEmpty_iff, List.map_eq_nil_iff, hne,
      ite_false, Except.ok.injEq] at hok
    subst hok
    simp only [] at hr
    have hcons : ∀ n ∈ sortNodes (files.map fun f => MerkleNode.leaf (hashFile f.2) f.1),
        hashConsistentB n = true := by
      intro n hn
      have hn2 := (sortNodes_perm _).mem_iff.mp hn
      rcases List.mem_map.mp hn2 with ⟨f, _, rfl⟩
      rfl
    exact buildMerkleTreeAux_consistent _ _ hcons r hr
  · intro n1 n2 n3
    rfl

/-- Witness for C3: the single-file tree is consistent. -/
theorem built_tree_hash_consistent_witness :
    hashConsistentB (MerkleNode.leaf (hashFile [0]) "a.txt") = true :=
  built_tree_hash_consistent.1 [("a.txt", [0])]
    ⟨some (.leaf (hashFile [0]) "a.txt")⟩ (by decide) rfl
    (.leaf (hashFile [0]) "a.txt") rfl

/-- C4: for a non-empty traversal with distinct paths, the snapshot's
`FileHashes` map binds exactly the input paths, each to its file's
content digest: lookup succeeds precisely at the traversed `(path,
digest)` pairs, the keys are duplicate-free, and they are a permutation
of the input paths — the self-pairing duplication of an odd node neither
adds nor loses entries. -/
theorem snapshot_fileHashes_exact (now : Timestamp) (files : List (String × List Nat))
    (hne : files ≠ []) (hnd : (files.map Prod.fst).Nodup) :
    ∃ st, CreateSnapshot now files = .ok st ∧
      (∀ p d, lookupHash st.fileHashes p = some d ↔
        (p, d) ∈ files.map fun f => (f.1, hashFile f.2)) ∧
      (st.fileHashes.map Prod.fst).Nodup ∧
      (st.fileHashes.map Prod.fst).Perm (files.map Prod.fst) := by
  have hmne : files.map (fun f => MerkleNode.leaf (hashFile f.2) f.1) ≠ [] := by
    simp [hne]
  have hLne : sortNodes (files.map fun f => MerkleNode.leaf (hashFile f.2) f.1) ≠ [] := by
    intro h
    have hp := sortNodes_perm (files.map fun f => MerkleNode.leaf (hashFile f.2) f.1)
    rw [h] at hp
    exact hmne hp.symm.eq_nil
  obtain ⟨r, hr⟩ := buildMerkleTree_some hLne
  have hok : CreateSnapshot now files = .ok ⟨now, some r.hash, collectFileHashes r []⟩ := by
    unfold CreateSnapshot GetTree
    simp only [createMerkleTreeFromFolder, List.isEmpty_iff, List.map_eq_nil_iff, hne,
      ite_false]
    simp [hr]
  have hch : collectFileHashes r [] = insertAllHashes [] (leafEntries r) :=
    collectFileHashes_eq r []
  unfold buildMerkleTree at hr
  have hmemr : ∀ a, a ∈ leafEntries r ↔
      a ∈ files.map fun f => (f.1, hashFile f.2) := by
    intro a
    rw [mem_leafEntries_buildAux _ _ _ hr a]
    unfold levelEntries
    rw [List.mem_flatten]
    constructor
    · rintro ⟨le, hle, ha⟩
      rcases List.mem_map.mp hle with ⟨n, hn, rfl⟩
      have hn2 := (sortNodes_perm _).mem_iff.mp hn
      rcases List.mem_map.mp hn2 with ⟨f, hf, rfl⟩
      simp only [leafEntries, List.mem_singleton] at ha
      subst ha
      exact List.mem_map.mpr ⟨f, hf, rfl⟩
    · intro ha
      rcases List.mem_map.mp ha with ⟨f, hf, rfl⟩
      refine ⟨[(f.1, hashFile f.2)], ?_, by simp⟩
      refine List.mem_map.mpr ⟨MerkleNode.leaf (hashFile f.2) f.1, ?_, rfl⟩
      exact (sortNodes_perm _).mem_iff.mpr (List.mem_map.mpr ⟨f, hf, rfl⟩)
  have hnd' : ((files.map fun f => (f.1, hashFile f.2)).map Prod.fst).Nodup := by
    rw [List.map_map]
    have : (Prod.fst ∘ fun f : String × List Nat => (f.1, hashFile f.2)) = Prod.fst := by
      funext f
      rfl
    rw [this]
    exact hnd
  have huniq : ∀ a ∈ leafEntries r, ∀ b ∈ leafEntries r, a.1 = b.1 → a.2 = b.2 := by
    intro a ha b hb hab
    have ha' := (hmemr a).mp ha
    have hb' := (hmemr b).mp hb
    obtain ⟨a1, a2⟩ := a
    obtain ⟨b1, b2⟩ := b
    simp only [] at hab
    subst hab
    exact mem_value_unique hnd' ha' hb'
  have hndst : ((collectFileHashes r []).map Prod.fst).Nodup := by
    rw [hch]
    exact nodup_keys_insertAllHashes _ [] (by simp)
  refine ⟨_, hok, ?_, hndst, ?_⟩
  · intro p d
    show lookupHash (collectFileHashes r []) p = some d ↔ _
    rw [hch, lookupHash_insertAllHashes _ [] huniq p d]
    simp only [lookupHash, List.map_nil, List.not_mem_nil, not_false_iff, and_true,
      true_and]
    constructor
    · rintro (h | ⟨_, h⟩)
      · exact (hmemr (p, d)).mp h
      · exact absurd h (by simp)
    · intro h
      exact Or.inl ((hmemr (p, d)).mpr h)
  · show ((collectFileHashes r []).map Prod.fst).Perm (files.map Prod.fst)
    refine (List.perm_ext_iff_of_nodup hndst hnd).mpr ?_
    intro x
    rw [hch, mem_keys_insertAllHashes]
    simp only [List.map_nil, List.not_mem_nil, false_or]
    constructor
    · intro hx
      rcases List.mem_map.mp hx with ⟨a, ha, rfl⟩
      have ha' := (hmemr a).mp ha
      rcases List.mem_map.mp ha' with ⟨f, hf, rfl⟩
      exact List.mem_map.mpr ⟨f, hf, rfl⟩
    · intro hx
      rcases List.mem_map.mp hx with ⟨f, hf, rfl⟩
      refine List.mem_map.mpr ⟨(f.1, hashFile f.2), ?_, rfl⟩
      exact (hmemr _).mpr (List.mem_map.mpr ⟨f, hf, rfl⟩)

/-- Witness for C4 at a concrete two-file traversal. -/
theorem snapshot_fileHashes_exact_witness :
    ∃ st, CreateSnapshot (0, 0) [("a.txt", [0]), ("b.txt", [1])] = .ok st ∧
      (∀ p d, lookupHash st.fileHashes p = some d ↔
        (p, d) ∈ ([("a.txt", [0]), ("b.txt", [1])].map fun f => (f.1, hashFile f.2))) ∧
      (st.fileHashes.map Prod.fst).Nodup ∧
      (st.fileHashes.map Prod.fst).Perm ([("a.txt", [0]), ("b.txt", [1])].map Prod.fst) :=
  snapshot_fileHashes_exact (0, 0) _ (by decide) (by decide)

/-- C6: a traversal that enumerates zero regular files makes
`createMerkleTreeFromFolder` — and therefore `GetTree` and
`CreateSnapshot` — return the explicit `no files found in folder` error
and no tree or snapshot value. -/
theorem empty_folder_errors (now : Timestamp) :
    createMerkleTreeFromFolder ([] : List (String × List Nat)) =
      .error "no files found in folder" ∧
    GetTree ([] : List (String × List Nat)) = .error "no files found in folder" ∧
    CreateSnapshot now ([] : List (String × List Nat)) =
      .error "no files found in folder" :=
  ⟨rfl, rfl, rfl⟩

/-- C7: for a single-file input the built tree's root is that leaf node
itself, so the root digest is the file's content digest with no
combination step. -/
theorem single_file_root_is_leaf (p : String) (content : List Nat) :
    createMerkleTreeFromFolder [(p, content)] =
      .ok ⟨some (.leaf (hashFile content) p)⟩ ∧
    (createMerkleTreeFromFolder [(p, content)]).map
        (fun t => t.root.map MerkleNode.hash) =
      .ok (some (hashFile content)) :=
  ⟨rfl, rfl⟩

set_option maxRecDepth 10000 in
/-- Counterexample to C5 as stated: two snapshots, each built by the
Tree Builder from a non-empty leaf set, with byte-wise equal root digests
and a non-empty change list.  The builder has no leaf/internal domain
separation, so the snapshot of files `a`, `b` and the snapshot of the
single file `c` whose content is `sha256(a) ++ sha256(b)` share the root
digest `sha256 (sha256 [0] ++ sha256 [1])` while their file sets differ
entirely. -/
theorem root_equality_empty_changes_counterexample :
    CreateSnapshot (0, 0) [("a", [0]), ("b", [1])] =
      .ok { timestamp := (0, 0),
            rootHash := some (sha256 (sha256 [0] ++ sha256 [1])),
            fileHashes := [("a", sha256 [0]), ("b", sha256 [1])] } ∧
    CreateSnapshot (0, 0) [("c", sha256 [0] ++ sha256 [1])] =
      .ok { timestamp := (0, 0),
            rootHash := some (sha256 (sha256 [0] ++ sha256 [1])),
            fileHashes := [("c", sha256 (sha256 [0] ++ sha256 [1]))] } ∧
    (some (sha256 (sha256 [0] ++ sha256 [1])) : Option (List Nat)) =
      some (sha256 (sha256 [0] ++ sha256 [1])) ∧
    (CompareSnapshots
        { timestamp := (0, 0),
          rootHash := some (sha256 (sha256 [0] ++ sha256 [1])),
          fileHashes := [("a", sha256 [0]), ("b", sha256 [1])] }
        { timestamp := (0, 0),
          rootHash := some (sha256 (sha256 [0] ++ sha256 [1])),
          fileHashes := [("c", sha256 (sha256 [0] ++ sha256 [1]))] }).changes ≠ [] := by
  refine ⟨by decide, by decide, rfl, by decide⟩

/-- C5 amended: byte-wise equality of root digests does not by itself
guarantee an empty change list (see the counterexample above); what holds
is that snapshots whose path→digest maps agree pointwise — as two
snapshots built from the same leaf set do — produce an empty change
list from `CompareSnapshots`. -/
theorem equal_maps_empty_changes (oldS newS : TreeState)
    (hndNew : (newS.fileHashes.map Prod.fst).Nodup)
    (h : ∀ p, lookupHash oldS.fileHashes p = lookupHash newS.fileHashes p) :
    (CompareSnapshots oldS newS).changes = [] := by
  rw [compareSnapshots_changes_eq]
  have hA : newS.fileHashes.filterMap (modifiedPass oldS.fileHashes) = [] := by
    rw [List.filterMap_eq_nil_iff]
    intro q hq
    obtain ⟨q1, q2⟩ := q
    have hlq : lookupHash newS.fileHashes q1 = some q2 :=
      lookupHash_of_mem_nodup hndNew hq
    have hlo : lookupHash oldS.fileHashes q1 = some q2 := (h q1).trans hlq
    simp [modifiedPass, hlo, (equalHashes_iff q2 q2).mpr rfl]
  have hB : newS.fileHashes.filterMap (addedPass oldS.fileHashes) = [] := by
    rw [List.filterMap_eq_nil_iff]
    intro q hq
    obtain ⟨q1, q2⟩ := q
    obtain ⟨w, hw⟩ := lookupHash_isSome_of_mem hq
    have hlo : lookupHash oldS.fileHashes q1 = some w := (h q1).symm ▸ hw
    simp [addedPass, hlo]
  have hC : oldS.fileHashes.filterMap (deletedPass newS.fileHashes) = [] := by
    rw [List.filterMap_eq_nil_iff]
    intro q hq
    obtain ⟨q1, q2⟩ := q
    obtain ⟨w, hw⟩ := lookupHash_isSome_of_mem hq
    have hln : lookupHash newS.fileHashes q1 = some w := (h q1).symm.trans hw
    simp [deletedPass, hln]
  rw [hA, hB, hC]
  rfl

/-- Witness for the amended C5: comparing a snapshot with itself. -/
theorem equal_maps_empty_changes_witness :
    (CompareSnapshots
        { timestamp := (0, 0), rootHash := none, fileHashes := [("a.txt", [1])] }
        { timestamp := (0, 0), rootHash := none,
          fileHashes := [("a.txt", [1])] }).changes = [] :=
  equal_maps_empty_changes _ _ (by decide) (fun _ => rfl)

/-! ### Lemmas: hex and timestamp codecs, save/load round trip -/

theorem hexVal_hexDigit {n : Nat} (h : n < 16) : hexVal (hexDigit n) = some n := by
  interval_cases n <;> rfl

theorem hexDecodeChars_encode :
    ∀ bs : List Nat, (∀ b ∈ bs, b < 256) →
      hexDecodeChars
        (bs.foldr (fun b acc => hexDigit (b / 16) :: hexDigit (b % 16) :: acc) []) =
        (bs, true) := by
  intro bs
  induction bs with
  | nil => intro _; rfl
  | cons b rest ih =>
      intro h
      have hb : b < 256 := h b (by simp)
      have hb2 : 16 * (b / 16) + b % 16 = b := by omega
      simp [List.foldr_cons, hexDecodeChars,
        hexVal_hexDigit (show b / 16 < 16 by omega),
        hexVal_hexDigit (show b % 16 < 16 by omega),
        ih (fun x hx => h x (by simp [hx])), hb2]

theorem hexDecode_hexEncode {bs : List Nat} (h : ∀ b ∈ bs, b < 256) :
    hexDecode (hexEncode bs) = (bs, true) :=
  hexDecodeChars_encode bs h

theorem natDigitsAux_digits :
    ∀ (fuel n : Nat), n ≤ fuel →
      ∀ c ∈ natDigitsAux fuel n, '0' ≤ c ∧ c ≤ '9' := by
  intro fuel
  induction fuel with
  | zero => intro n _ c hc; simp [natDigitsAux] at hc
  | succ f ih =>
      intro n hn c hc
      by_cases h0 : n = 0
      · simp [natDigitsAux, h0] at hc
      · simp only [natDigitsAux, h0, ite_false, List.mem_cons] at hc
        rcases hc with rfl | hc
        · have hm : n % 10 < 10 := Nat.mod_lt _ (by omega)
          constructor <;> (interval_cases hd : (n % 10) <;> decide)
        · exact ih (n / 10) (by omega) c hc

theorem natDigitsAux_foldr :
    ∀ (fuel n : Nat), n ≤ fuel →
      (natDigitsAux fuel n).foldr (fun c acc => 10 * acc + (c.toNat - 48)) 0 = n := by
  intro fuel
  induction fuel with
  | zero => intro n hn; interval_cases n; rfl
  | succ f ih =>
      intro n hn
      by_cases h0 : n = 0
      · simp [natDigitsAux, h0]
      · simp only [natDigitsAux, h0, ite_false, List.foldr_cons,
          ih (n / 10) (by omega)]
        have hm : n % 10 < 10 := Nat.mod_lt _ (by omega)
        have htn : (Char.ofNat (48 + n % 10)).toNat = 48 + n % 10 := by
          interval_cases hd : (n % 10) <;> decide
        rw [htn]
        omega

theorem parseDecimal_formatNat (n : Nat) : parseDecimal (formatNat n) = some n := by
  by_cases h0 : n = 0
  · subst h0
    rfl
  · have hdig := natDigitsAux_digits n n le_rfl
    have hne : natDigitsAux n n ≠ [] := by
      cases hfn : natDigitsAux n n with
      | nil =>
          cases n with
          | zero => exact absurd rfl h0
          | succ m => simp [natDigitsAux, h0] at hfn
      | cons c cs => simp
    simp only [formatNat, h0, ite_false, parseDecimal]
    rw [if_pos]
    · rw [List.foldl_reverse]
      congr 1
      exact natDigitsAux_foldr n n le_rfl
    · constructor
      · simpa using hne
      · rw [List.all_eq_true]
        intro c hc
        rw [List.mem_reverse] at hc
        have := hdig c hc
        simpa using this

theorem parseRFC3339_format (t : Timestamp) :
    parseRFC3339 (formatRFC3339 t) = (t.1, 0) := by
  unfold parseRFC3339 formatRFC3339
  rw [parseDecimal_formatNat]

theorem insertHash_append {m : List (String × List Nat)} {k : String} {v : List Nat}
    (h : k ∉ m.map Prod.fst) : insertHash m k v = m ++ [(k, v)] := by
  induction m with
  | nil => rfl
  | cons q rest ih =>
      obtain ⟨k', v'⟩ := q
      simp only [List.map_cons, List.mem_cons] at h
      push_neg at h
      have hk : ¬ k' = k := fun he => h.1 he.symm
      simp [insertHash, hk, ih h.2]

theorem insertAllHashes_append :
    ∀ (l m : List (String × List Nat)), (l.map Prod.fst).Nodup →
      (∀ k ∈ l.map Prod.fst, k ∉ m.map Prod.fst) →
      insertAllHashes m l = m ++ l := by
  intro l
  induction l with
  | nil => intro m _ _; simp [insertAllHashes]
  | cons q rest ih =>
      intro m hnd hdisj
      simp only [List.map_cons, List.nodup_cons] at hnd
      rw [show insertAllHashes m (q :: rest) = insertAllHashes (insertHash m q.1 q.2) rest
        from rfl]
      rw [ih (insertHash m q.1 q.2) hnd.2 ?_]
      · rw [insertHash_append (hdisj q.1 (by simp))]
        simp
      · intro k hk hkm
        rcases (mem_keys_insertHash m q.1 q.2 k).mp hkm with h | h
        · exact hnd.1 (h ▸ hk)
        · exact hdisj k (by simp [hk]) h

theorem insertAllHashes_nil_of_nodup (l : List (String × List Nat))
    (hnd : (l.map Prod.fst).Nodup) : insertAllHashes [] l = l := by
  rw [insertAllHashes_append l [] hnd (by simp)]
  rfl

/-- One four-field data row of `LoadSnapshot` (field count matching a
four-column header): the timestamp is parsed only while zero, the root
hash is decoded only while nil, and the file hash is assigned
unconditionally. -/
theorem loadRows_step (c0 c1 c2 c3 : String) (rest : List (List String))
    (acc : TreeState) :
    loadRows 4 ([c0, c1, c2, c3] :: rest) acc =
      loadRows 4 rest
        { timestamp := if acc.timestamp = (0, 0) then parseRFC3339 c0 else acc.timestamp,
          rootHash := if acc.rootHash = none then some (hexDecode c1).1 else acc.rootHash,
          fileHashes := insertHash acc.fileHashes c2 (hexDecode c3).1 } := by
  have h4 : ([c0, c1, c2, c3] : List String).length = 4 := rfl
  simp only [loadRows, if_pos h4]
  by_cases h1 : acc.timestamp = (0, 0)
  · rw [if_pos h1, if_pos h1]
    by_cases h2 : acc.rootHash = none
    · rw [if_pos (show ({ acc with timestamp := parseRFC3339 c0 } : TreeState).rootHash =
          none from h2), if_pos h2]
    · rw [if_neg (show ¬ ({ acc with timestamp := parseRFC3339 c0 } : TreeState).rootHash =
          none from h2), if_neg h2]
  · rw [if_neg h1, if_neg h1]
    by_cases h2 : acc.rootHash = none
    · rw [if_pos h2, if_pos h2]
    · rw [if_neg h2, if_neg h2]

/-- The data-row loop of `LoadSnapshot` on the rows `SaveSnapshot`
writes: the first row fixes the timestamp and root hash; every row's
decoded file hash is assigned into the map. -/
theorem loadRows_save_rows (tsStr rhStr : String) :
    ∀ (l : List (String × List Nat)) (acc : TreeState), l ≠ [] →
      (acc.timestamp = (0, 0) ∨ acc.timestamp = parseRFC3339 tsStr) →
      (acc.rootHash = none ∨ acc.rootHash = some (hexDecode rhStr).1) →
      loadRows 4 (l.map fun p => [tsStr, rhStr, p.1, hexEncode p.2]) acc =
        .ok { timestamp := parseRFC3339 tsStr,
              rootHash := some (hexDecode rhStr).1,
              fileHashes := insertAllHashes acc.fileHashes
                (l.map fun p => (p.1, (hexDecode (hexEncode p.2)).1)) } := by
  intro l
  induction l with
  | nil => intro acc hne _ _; exact absurd rfl hne
  | cons q rest ih =>
      intro acc hne hts hrh
      simp only [List.map_cons]
      rw [loadRows_step]
      have hts' : (if acc.timestamp = (0, 0) then parseRFC3339 tsStr else acc.timestamp) =
          parseRFC3339 tsStr := by
        by_cases h1 : acc.timestamp = (0, 0)
        · rw [if_pos h1]
        · rw [if_neg h1]
          rcases hts with h | h
          · exact absurd h h1
          · exact h
      have hrh' : (if acc.rootHash = none then some (hexDecode rhStr).1 else acc.rootHash) =
          some (hexDecode rhStr).1 := by
        by_cases h2 : acc.rootHash = none
        · rw [if_pos h2]
        · rw [if_neg h2]
          rcases hrh with h | h
          · exact absurd h h2
          · exact h
      cases rest with
      | nil =>
          simp only [List.map_nil, loadRows]
          rw [hts', hrh']
          rfl
      | cons r rest' =>
          rw [ih _ (by simp) (Or.inr hts') (Or.inr hrh')]
          rfl

/-- C8: saving a snapshot and loading the written records back yields a
snapshot with the same root digest, the same path→digest map, and the
timestamp truncated to the whole seconds the RFC 3339 column carries.
(The snapshot has at least one file, as every built snapshot does — with
no data rows nothing is recoverable — and its digests are byte values.) -/
theorem save_load_round_trip (st : TreeState) (rh : List Nat)
    (hne : st.fileHashes ≠ [])
    (hnd : (st.fileHashes.map Prod.fst).Nodup)
    (hrh : st.rootHash = some rh)
    (hrb : ∀ b ∈ rh, b < 256)
    (hfb : ∀ p ∈ st.fileHashes, ∀ b ∈ p.2, b < 256) :
    LoadSnapshot (SaveSnapshot st) =
      .ok { timestamp := (st.timestamp.1, 0), rootHash := some rh,
            fileHashes := st.fileHashes } := by
  rw [show LoadSnapshot (SaveSnapshot st) =
      loadRows 4 (st.fileHashes.map fun p =>
        [formatRFC3339 st.timestamp, hexEncode (st.rootHash.getD []), p.1, hexEncode p.2])
        { timestamp := (0, 0), rootHash := none, fileHashes := [] } from rfl]
  rw [hrh]
  rw [loadRows_save_rows (formatRFC3339 st.timestamp) (hexEncode ((some rh).getD []))
    st.fileHashes _ hne (Or.inl rfl) (Or.inl rfl)]
  have hdec : hexDecode (hexEncode ((some rh).getD [])) = (rh, true) := by
    rw [show ((some rh).getD [] : List Nat) = rh from rfl]
    exact hexDecode_hexEncode hrb
  have hmap : (st.fileHashes.map fun p => (p.1, (hexDecode (hexEncode p.2)).1)) =
      st.fileHashes := by
    rw [show (st.fileHashes.map fun p => (p.1, (hexDecode (hexEncode p.2)).1)) =
        st.fileHashes.map (fun p => p) from ?_]
    · simp
    · apply List.map_congr_left
      intro p hp
      rw [hexDecode_hexEncode (hfb p hp)]
  rw [hdec, hmap, parseRFC3339_format, insertAllHashes_nil_of_nodup _ hnd]

/-- Witness for C8 at a concrete snapshot (nanoseconds are dropped). -/
theorem save_load_round_trip_witness :
    LoadSnapshot (SaveSnapshot
        { timestamp := (5, 7), rootHash := some [171],
          fileHashes := [("a.txt", [1, 2])] }) =
      .ok { timestamp := (5, 0), rootHash := some [171],
            fileHashes := [("a.txt", [1, 2])] } :=
  save_load_round_trip _ [171] (by decide) (by decide) rfl (by decide) (by decide)

/-- Counterexample to C9 as stated: a stored record whose timestamp
column does not parse and whose root-hash and file-hash columns are not
valid hexadecimal loads without any error — `LoadSnapshot` discards the
parse errors and keeps the zero timestamp and the empty decoded
prefixes, instead of surfacing the malformation. -/
theorem loadSnapshot_error_masking_counterexample :
    LoadSnapshot [csvHeader, ["notatime", "zz", "f.txt", "qq"]] =
      .ok { timestamp := (0, 0), rootHash := some [],
            fileHashes := [("f.txt", [])] } := by
  decide

/-- A header whose first field is wrong fails the very first iteration
of the Go validation loop. -/
theorem checkHeader_first_field {c0 : String} (rest : List String)
    (hne : c0 ≠ "timestamp") :
    checkHeader (c0 :: rest) = .error "invalid CSV header" := by
  unfold checkHeader csvHeader
  simp only [checkHeaderAux]
  rw [if_neg hne]

/-- C9 amended: `LoadSnapshot` silently masks malformed timestamp and
hex columns (the Go code discards those parse errors, leaving the zero
timestamp and the partially-decoded bytes).  Header validation inspects
only the first four fields: a mismatching inspected field — here the
first — is surfaced as the `invalid CSV header` error, but a longer
header with the matching four-field prefix is silently accepted (its
extra data-row columns ignored), and a strictly shorter prefix header
makes the Go program panic on `header[i]` rather than return an error.
The absent-prior-snapshot case of `FindLatestSnapshot` is reported as
the distinct no-prior-state error, not a generic read failure. -/
theorem loadSnapshot_error_surfacing_amended :
    (∀ (c0 : String) (rest : List String) (rows : List (List String)),
      c0 ≠ "timestamp" →
      LoadSnapshot ((c0 :: rest) :: rows) = .error "invalid CSV header") ∧
    LoadSnapshot [csvHeader, ["notatime", "zz", "f.txt", "qq"]] =
      .ok { timestamp := (0, 0), rootHash := some [],
            fileHashes := [("f.txt", [])] } ∧
    LoadSnapshot [csvHeader ++ ["extra"], ["3", "ab", "f.txt", "cd", "x"]] =
      .ok { timestamp := (3, 0), rootHash := some [171],
            fileHashes := [("f.txt", [205])] } ∧
    LoadSnapshot [["timestamp"]] = .error "panic: index out of range" ∧
    (∀ folderName : String, FindLatestSnapshot folderName [] =
      .error ("no previous state found for folder: " ++ folderName)) := by
  refine ⟨?_, by decide, by decide, by decide, fun folderName => rfl⟩
  intro c0 rest rows hne
  simp only [LoadSnapshot, checkHeader_first_field rest hne]

/-- Witness for the amended C9 at a concrete wrong header. -/
theorem loadSnapshot_error_surfacing_amended_witness :
    LoadSnapshot [["bad"]] = .error "invalid CSV header" :=
  loadSnapshot_error_surfacing_amended.1 "bad" [] [] (by decide)

/-- C10: loading a file that holds only the valid four-column header row
succeeds and returns the zero state — zero timestamp, nil root hash,
empty map; the at-least-one-file precondition is not enforced on load. -/
theorem loadSnapshot_header_only_zero_state :
    LoadSnapshot [csvHeader] =
      .ok { timestamp := (0, 0), rootHash := none, fileHashes := [] } := rfl
